import Mathlib

/-!
Verification of the outline-to-graph core of the IntelliMap / mind-map
generator (src/app.py) against its natural-language specification.

The embedding models the Python source shallowly:

* Python strings are `String` (a structure over `List Char` in this Lean
  version); all character-level work happens on `List Char`.
* `str.strip()` is `pyStripL` / `pyStrip`; `str.split('\n')` is `splitOnNl`;
  `str.lower()` is `toLowerL` (the source only ever feeds ASCII through it).
* The regex character class `\s` is modelled by `isPyWs` (the ASCII
  whitespace characters Python's `re` accepts; the app's inputs are ASCII).
* The regex word class `\w` is modelled by `isWordChar` (ASCII letters,
  digits, underscore).
* Python's `set` of ids is a `List String` used only through membership,
  exactly how the source uses it.
* `f"{base_id}_{counter}"` uses `natStr`, a decimal rendering of `Nat`
  agreeing with Python's `str` on all naturals.
* Unbounded `while` loops are given explicit fuel; the fuel bounds are
  proved sufficient, so the fueled functions agree with the loops.
-/

/-- ASCII whitespace as matched by Python's `str.strip()` and `re`'s `\s`. -/
def isPyWs (c : Char) : Bool :=
  c == ' ' || c == '\t' || c == '\n' || c == '\r' || c == '\x0b' || c == '\x0c'

/-- ASCII word characters, modelling `re`'s `\w`: letters, digits, underscore. -/
def isWordChar (c : Char) : Bool :=
  ('a' ≤ c && c ≤ 'z') || ('A' ≤ c && c ≤ 'Z') || ('0' ≤ c && c ≤ '9') || c == '_'

/-- Python `str.strip()` on a character list: drop leading and trailing
whitespace. -/
def pyStripL (l : List Char) : List Char :=
  ((l.dropWhile isPyWs).reverse.dropWhile isPyWs).reverse

/-- Python `str.strip()`. -/
def pyStrip (s : String) : String :=
  ⟨pyStripL s.data⟩

/-- Python `str.lower()` on a character list (ASCII). -/
def toLowerL (l : List Char) : List Char :=
  l.map Char.toLower

/-- Python `str.split('\n')`: split at every newline, keeping empty pieces.
`splitOnNl "".data = [[]]`, matching `"".split('\n') == [""]`. -/
def splitOnNl : List Char → List (List Char)
  | [] => [[]]
  | c :: rest =>
    if c == '\n' then [] :: splitOnNl rest
    else
      match splitOnNl rest with
      | [] => [[c]]
      | l :: ls => (c :: l) :: ls

/-- Decimal digit character for `d < 10`. -/
def digitChar (d : Nat) : Char :=
  Char.ofNat (48 + d)

/-- Decimal rendering of a natural number, big-endian, with explicit fuel
(the fuel `n + 1` always suffices).  Agrees with Python's `str(n)`. -/
def natStrAux : Nat → Nat → List Char
  | 0, _ => []
  | fuel + 1, n =>
    if n < 10 then [digitChar n]
    else natStrAux fuel (n / 10) ++ [digitChar (n % 10)]

/-- Decimal rendering of a natural number, agreeing with Python's `str`. -/
def natStr (n : Nat) : List Char :=
  natStrAux (n + 1) n

/-- Decimal value of a digit string; left inverse of `natStr`. -/
def decVal (l : List Char) : Nat :=
  l.foldl (fun a c => a * 10 + (c.toNat - 48)) 0

/-- The sanitisation step of `generate_unique_node_id` (src/app.py line 83):
`re.sub(r'\W+', '_', text)` replaces every maximal run of non-word
characters by one underscore.  The Boolean flag records whether the previous
character was part of such a run (so the run produces a single `_`). -/
def sanitizeAux : Bool → List Char → List Char
  | _, [] => []
  | inRun, c :: rest =>
    if isWordChar c then c :: sanitizeAux false rest
    else if inRun then sanitizeAux true rest
    else '_' :: sanitizeAux true rest

/-- `re.sub(r'\W+', '_', text).lower()` (src/app.py line 83). -/
def sanitize (text : String) : List Char :=
  toLowerL (sanitizeAux false text.data)

/-- The base id of `generate_unique_node_id` (src/app.py lines 83-85):
the sanitised label, or the literal `"node"` when that is empty. -/
def baseIdOf (text : String) : String :=
  let b := sanitize text
  if b.isEmpty then "node" else ⟨b⟩

/-- The candidate sequence tried by the collision loop of
`generate_unique_node_id`: `base, base_1, base_2, ...`
(src/app.py lines 86-90). -/
def candAux (base : String) (k : Nat) : String :=
  if k = 0 then base else base ++ "_" ++ ⟨natStr k⟩

/-- The `while node_id in existing_ids` loop of `generate_unique_node_id`
(src/app.py lines 88-90), with explicit fuel.  Starting from candidate `k`,
returns the first candidate not in `existing_ids`; the fuel
`existing_ids.length + 1` is proved sufficient below. -/
def findFree (base : String) (existing : List String) : Nat → Nat → String
  | 0, k => candAux base k
  | fuel + 1, k =>
    if candAux base k ∈ existing then findFree base existing fuel (k + 1)
    else candAux base k

/-- `generate_unique_node_id` (src/app.py lines 81-91): sanitise the label,
fall back to `"node"` when empty, then append `_1`, `_2`, ... until the id
is not in `existing_ids`.  Pure: the running set is threaded by the caller,
never mutated here. -/
def generate_unique_node_id (text : String) (existing_ids : List String) : String :=
  findFree (baseIdOf text) existing_ids (existing_ids.length + 1) 0

/-- Settings dictionary consumed by `parse_markdown_to_graphviz`
(src/app.py lines 122-172).  The keys the function reads are modelled as
fields; `search_term` is read with `settings.get("search_term", "")`. -/
structure Settings where
  bg_color : String
  orientation : String
  layout_engine : String
  node_shape : String
  node_color : String
  highlight_color : String
  node_font_color : String
  node_border_color : String
  font_size : Nat
  edge_color : String
  search_term : String
deriving DecidableEq

/-- A graphviz node as emitted by `dot.node(...)` (src/app.py lines 158-163).
`fill` is the per-node fill colour (the only attribute that varies between
nodes); `depth` is the indentation level the parser computed for the line —
a specification ghost field (graphviz receives no depth).  The remaining
node attributes are the same for every node and live on `DotGraph`. -/
structure PNode where
  id : String
  label : String
  depth : Nat
  fill : String
deriving DecidableEq

/-- A graphviz edge as emitted by `dot.edge(parent_id, node_id, color=...)`
(src/app.py line 170). -/
structure PEdge where
  src : String
  dst : String
  color : String
deriving DecidableEq

/-- The graph description accumulated in `dot`: graph-level attributes
(src/app.py lines 126-134), the uniform per-node attributes, an optional
caption (watermark, present only in the keyword-argument variant), and the
node and edge statements in emission order. -/
structure DotGraph where
  bgcolor : String
  rankdir : String
  engine : String
  caption : Option String
  node_shape : String
  node_font_color : String
  node_border_color : String
  font_size : Nat
  nodes : List PNode
  edges : List PEdge
deriving DecidableEq

/-- Python's substring test `needle in hay` on character lists. -/
def subOf (needle : List Char) : List Char → Bool
  | [] => needle.isEmpty
  | c :: rest => needle.isPrefixOf (c :: rest) || subOf needle rest

/-- `re.match(r'^(\s*)-\s(.+)', line)` (src/app.py line 143) on one line.
The leading `\s*` is greedy and `-` is not whitespace, so the match is
forced: the maximal whitespace run, then `-`, then exactly one whitespace
character, then a non-empty remainder (`.` cannot match a newline, and a
split line contains none).  Returns the two captured groups. -/
def matchItem (l : List Char) : Option (List Char × List Char) :=
  match l.dropWhile isPyWs with
  | x :: c :: rest =>
    if x == '-' && isPyWs c && !rest.isEmpty then some (l.takeWhile isPyWs, rest)
    else none
  | _ => none

/-- Loop state of `parse_markdown_to_graphviz` (src/app.py lines 136-172):
the parent stack (top at the head, so `stack.head? = parent_stack[-1]`),
the id set (a list used only through membership), and the node and edge
statements issued so far, in source order. -/
structure SState where
  stack : List (Nat × String)
  existing : List String
  nodes : List PNode
  edges : List PEdge
deriving DecidableEq

/-- The empty loop state (src/app.py lines 137-138). -/
def initS : SState :=
  ⟨[], [], [], []⟩

/-- `while parent_stack and parent_stack[-1][0] >= level: parent_stack.pop()`
(src/app.py lines 165-166). -/
def popGE (stack : List (Nat × String)) (level : Nat) : List (Nat × String) :=
  stack.dropWhile (fun p => level ≤ p.1)

/-- One iteration of the `for line in lines` loop of
`parse_markdown_to_graphviz` (src/app.py lines 141-172). -/
def processLine (s : Settings) (st : SState) (line : List Char) : SState :=
  match matchItem line with
  | none => st
  | some (ind, t0) =>
    let level := ind.length / 2
    let t : String := ⟨pyStripL t0⟩
    let nid := generate_unique_node_id t st.existing
    let stLow := toLowerL s.search_term.data
    let fill :=
      if !stLow.isEmpty && subOf stLow (toLowerL t.data) then s.highlight_color
      else s.node_color
    let stack := popGE st.stack level
    let edges :=
      match stack with
      | [] => st.edges
      | (_, pid) :: _ => st.edges ++ [⟨pid, nid, s.edge_color⟩]
    ⟨(level, nid) :: stack, nid :: st.existing, st.nodes ++ [⟨nid, t, level, fill⟩], edges⟩

/-- The final loop state of `parse_markdown_to_graphviz` after scanning
`markdown_text.strip().split('\n')` (src/app.py lines 136-172). -/
def parseFold (markdown_text : String) (s : Settings) : SState :=
  (splitOnNl (pyStrip markdown_text).data).foldl (processLine s) initS

/-- The graph `dot` as constructed by src/app.py lines 126-172: graph
attributes from the settings, then the node/edge statements of the scan. -/
def buildDot (markdown_text : String) (s : Settings) : DotGraph :=
  let st := parseFold markdown_text s
  ⟨s.bg_color, s.orientation, s.layout_engine, none, s.node_shape,
    s.node_font_color, s.node_border_color, s.font_size, st.nodes, st.edges⟩

/-- `parse_markdown_to_graphviz` (src/app.py lines 122-178) as a whole.
After the parsing loop the function body continues with the statements of
lines 174-178 — the body of a lost `generate_mind_map` definition — whose
second statement reads the undefined global `MIND_MAP_PROMPT`.  Every call
therefore raises `NameError` after building `dot`; exceptions are modelled
with `Except`. -/
def parse_markdown_to_graphviz (markdown_text : String) (s : Settings) :
    Except String DotGraph :=
  let _dot := buildDot markdown_text s
  Except.error "NameError: name MIND_MAP_PROMPT is not defined"

/-- Characters other than the newline (what `.` matches in Python's `re`). -/
def notNl (c : Char) : Bool :=
  !(c == '\n')

/-- Position of the next line start: drop up to and including the next
newline. -/
def nextLineStart (l : List Char) : List Char :=
  (l.dropWhile notNl).drop 1

/-- `re.findall(r'^\s*-\s(.+)', markdown_text, re.MULTILINE)`
(src/app.py line 119), determinised.  At each line start (`^` under
`re.MULTILINE`): the greedy `\s*` must end exactly where the first
non-whitespace character sits (a `-` or the match fails — no backtracking
can help, every shorter run still faces a whitespace character); then one
`\s` (which may be the newline itself when the `-` ends its line); then
`(.+)` captures the maximal non-empty run of non-newline characters.
After a match or a failure the scan resumes at the next line start; line
starts skipped inside a whitespace run fail identically, so resuming there
is faithful (and when the remaining whitespace reaches the end of the
input, the scan simply ends).  Fuel `length + 1` suffices: every step
either ends the scan or moves past at least one character. -/
def findItemsAux : Nat → List Char → List String
  | 0, _ => []
  | fuel + 1, cs =>
    match cs.dropWhile isPyWs with
    | [] => []
    | x :: rest =>
      match rest with
      | [] => findItemsAux fuel (nextLineStart (x :: rest))
      | c :: tail =>
        if x == '-' && isPyWs c && !(tail.takeWhile notNl).isEmpty then
          (⟨tail.takeWhile notNl⟩ : String) ::
            findItemsAux fuel (nextLineStart (tail.drop (tail.takeWhile notNl).length))
        else findItemsAux fuel (nextLineStart (x :: rest))

/-- All raw captures of `re.findall(r'^\s*-\s(.+)', cs, re.MULTILINE)`. -/
def findItems (cs : List Char) : List String :=
  findItemsAux (cs.length + 1) cs

/-- `parse_nodes_from_markdown` (src/app.py lines 116-120): the regex
captures, each stripped. -/
def parse_nodes_from_markdown (markdown_text : String) : List String :=
  (findItems markdown_text.data).map (fun s => (⟨pyStripL s.data⟩ : String))


/-- Claim C9's description of `parse_nodes_from_markdown`, stated from the
spec's words (§4.3): a line qualifies if, after stripping leading
whitespace, it starts with the dash-space marker; the label is everything
after that marker, trimmed; order and duplicates preserved. -/
def claimLabelsC9 (markdown_text : String) : List String :=
  (splitOnNl markdown_text.data).filterMap (fun l =>
    let r := l.dropWhile isPyWs
    if ['-', ' '].isPrefixOf r then some ((⟨pyStripL (r.drop 2)⟩ : String)) else none)

/-- Options of the keyword-argument graph-builder variant
(spec §4.2; the variant itself is absent from src/app.py — see
`build_graph`). -/
structure Options where
  orientation : String
  max_depth : Nat
  custom_root : String
  hide_leaf_nodes : Bool
  search_term : String
  node_shape : String
  node_color : String
  highlight_color : String
  node_font_color : String
  node_border_color : String
  font_size : Nat
  edge_color : String
  bg_color : String
  layout_engine : String
  add_watermark : Bool
  watermark_text : String
deriving DecidableEq

/-- Loop state of the keyword-argument builder: parent stack (top at head),
id set, emitted nodes and edges in source order, and the emitted-node
counter returned as `node_count`. -/
structure MState where
  stack : List (Nat × String)
  existing : List String
  nodes : List PNode
  edges : List PEdge
  count : Nat
deriving DecidableEq

/-- The empty builder state. -/
def initM : MState :=
  ⟨[], [], [], [], 0⟩

/-- Depth of a raw line in the keyword-argument variant: count of leading
space characters, integer-divided by two (spec §4.2 step 3; also used for
the leaf-hiding lookahead on the next raw line). -/
def rawDepth (l : List Char) : Nat :=
  (l.takeWhile (fun c => c == ' ')).length / 2

/-- Modelled from the spec: one line step of the keyword-argument variant of
`parse_markdown_to_graphviz`.  That variant — signature
`(markdown_output, topic_seed, orientation=..., max_depth=...,
custom_root=..., hide_leaf_nodes=..., ...)`, returning `(graph, node_count)`
— is called at src/app.py lines 326-345 but its definition is not in
src/app.py; only the call site is.  Behaviour follows spec §4.2:
skip blank lines (step 2); depth from leading spaces (step 3); skip when
`depth >= max_depth` (step 4); permissive dash-trim text extraction and the
`custom_root` substitution at depth 0 (step 5, §3, §9); leaf hiding by
raw-next-line lookahead, suppressed lines touching nothing (step 6);
unique id, highlight fill, parent stack maintenance and edge to the new
top (steps 7-8); the emitted-node counter (step 10). -/
def buildStep (o : Options) (line : List Char) (next : Option (List Char))
    (st : MState) : MState :=
  let stripped := pyStripL line
  if stripped.isEmpty then st
  else
    let depth := rawDepth line
    if o.max_depth ≤ depth then st
    else
      let t0 := pyStripL (stripped.dropWhile (fun c => c == '-' || c == ' '))
      let text : String :=
        if !o.custom_root.data.isEmpty && depth == 0 then o.custom_root else ⟨t0⟩
      let isHiddenLeaf :=
        o.hide_leaf_nodes &&
          (match next with
           | some r => decide (rawDepth r ≤ depth)
           | none => false)
      if isHiddenLeaf then st
      else
        let nid := generate_unique_node_id text st.existing
        let stLow := toLowerL o.search_term.data
        let fill :=
          if !stLow.isEmpty && subOf stLow (toLowerL text.data) then o.highlight_color
          else o.node_color
        let stack := popGE st.stack depth
        let edges :=
          match stack with
          | [] => st.edges
          | (_, pid) :: _ => st.edges ++ [⟨pid, nid, o.edge_color⟩]
        ⟨(depth, nid) :: stack, nid :: st.existing,
          st.nodes ++ [⟨nid, text, depth, fill⟩], edges, st.count + 1⟩

/-- Modelled from the spec: the line scan of the keyword-argument builder,
passing each line together with the immediately next raw line (spec §4.2
steps 1 and 6: lookahead by index + 1, not skipping blanks). -/
def buildLines (o : Options) : List (List Char) → MState → MState
  | [], st => st
  | l :: rest, st => buildLines o rest (buildStep o l rest.head? st)

/-- Modelled from the spec: `build_graph(outline_text, options) ->
(GraphDescription, node_count)` (spec §4.2), the keyword-argument variant of
`parse_markdown_to_graphviz` whose definition is missing from src/app.py
(only its call site at lines 326-345 appears there).  Splits the input into
physical lines, scans them with `buildStep`, attaches the optional
watermark caption (step 9), and returns the graph with the emitted-node
count (step 10). -/
def build_graph (outline_text : String) (o : Options) : DotGraph × Nat :=
  let st := buildLines o (splitOnNl outline_text.data) initM
  let caption :=
    if o.add_watermark && !o.watermark_text.data.isEmpty then some o.watermark_text
    else none
  (⟨o.bg_color, o.orientation, o.layout_engine, caption, o.node_shape,
      o.node_font_color, o.node_border_color, o.font_size, st.nodes, st.edges⟩,
    st.count)

/-- `o.custom_root` replaced, everything else kept (used to state C4's
"nodes of depth > 0 are unaffected"). -/
def setRoot (o : Options) (r : String) : Options :=
  ⟨o.orientation, o.max_depth, r, o.hide_leaf_nodes, o.search_term, o.node_shape,
    o.node_color, o.highlight_color, o.node_font_color, o.node_border_color,
    o.font_size, o.edge_color, o.bg_color, o.layout_engine, o.add_watermark,
    o.watermark_text⟩

/-- The (label, depth) view of the nodes of positive depth (claim C4). -/
def deepView (ns : List PNode) : List (String × Nat) :=
  ns.filterMap (fun n => if n.depth == 0 then none else some (n.label, n.depth))

/-- Nodes of a graph that are the target of no edge (parentless roots,
claim C8). -/
def parentless (g : DotGraph) : List PNode :=
  g.nodes.filter (fun n => g.edges.all (fun e => !(e.dst == n.id)))

/-- Line-by-line reading of the `findall` scan: the raw capture of every
line that matches `^(\s*)-\s(.+)` on its own (used to state the amended
claim C9 and relate the extractor to the graph builder's line matcher). -/
def rawPerLine (cs : List Char) : List String :=
  (splitOnNl cs).filterMap (fun l => (matchItem l).map (fun p => (⟨p.2⟩ : String)))

/-- The (label, depth) pairs of positive depth contributed by one line of
the keyword-argument builder (mirrors the branch structure of `buildStep`;
independent of the accumulated state). -/
def dvStep (o : Options) (line : List Char) (next : Option (List Char)) :
    List (String × Nat) :=
  let stripped := pyStripL line
  if stripped.isEmpty then []
  else
    let depth := rawDepth line
    if o.max_depth ≤ depth then []
    else
      let t0 := pyStripL (stripped.dropWhile (fun c => c == '-' || c == ' '))
      let isHiddenLeaf :=
        o.hide_leaf_nodes &&
          (match next with
           | some r => decide (rawDepth r ≤ depth)
           | none => false)
      if isHiddenLeaf then []
      else if depth == 0 then []
      else [((⟨t0⟩ : String), depth)]

/-- The settings value used for concrete evaluations of the dict variant:
the sidebar defaults of src/app.py (lines 196-226). -/
def defaultSettings : Settings :=
  ⟨"#FFFFFF", "LR", "dot", "box", "#ADD8E6", "#FFD700", "#000000", "#000000",
    12, "#888888", ""⟩

/-- Keyword-argument options with the sidebar defaults (src/app.py lines
196-250): `max_depth = 5`, no custom root, leaf hiding off. -/
def baseOpts : Options :=
  ⟨"LR", 5, "", false, "", "box", "#ADD8E6", "#FFD700", "#000000", "#000000",
    12, "#888888", "#FFFFFF", "dot", false, ""⟩

/-- `baseOpts` with `hide_leaf_nodes = true` (claim C5's scenario). -/
def hideOpts : Options :=
  ⟨"LR", 5, "", true, "", "box", "#ADD8E6", "#FFD700", "#000000", "#000000",
    12, "#888888", "#FFFFFF", "dot", false, ""⟩

/-- `baseOpts` with `max_depth = 1` (claim C3's witness). -/
def depthOpts : Options :=
  ⟨"LR", 1, "", false, "", "box", "#ADD8E6", "#FFD700", "#000000", "#000000",
    12, "#888888", "#FFFFFF", "dot", false, ""⟩

/-- `baseOpts` with `custom_root = "ROOT"` (claim C4's witness). -/
def rootOpts : Options :=
  ⟨"LR", 5, "ROOT", false, "", "box", "#ADD8E6", "#FFD700", "#000000", "#000000",
    12, "#888888", "#FFFFFF", "dot", false, ""⟩

/-- `n` is the target of no edge in `edges`. -/
def noIncoming (edges : List PEdge) (n : PNode) : Bool :=
  edges.all (fun e => !(e.dst == n.id))

/-- The nodes among `nodes` that are the target of no edge in `edges`. -/
def rootsAmong (nodes : List PNode) (edges : List PEdge) : List PNode :=
  nodes.filter (noIncoming edges)

/-- Invariant of the dict-variant scan (src/app.py lines 141-172): every
emitted node id and every edge target is in the running id set, the node
ids are pairwise distinct, and the node count splits into the edge count
plus the parentless-node count. -/
def SInv (st : SState) : Prop :=
  (∀ n ∈ st.nodes, n.id ∈ st.existing) ∧
  (∀ e ∈ st.edges, e.dst ∈ st.existing) ∧
  (st.nodes.map PNode.id).Nodup ∧
  st.nodes.length = st.edges.length + (rootsAmong st.nodes st.edges).length

theorem digitChar_toNat {d : Nat} (hd : d < 10) : (digitChar d).toNat = 48 + d := by
  interval_cases d <;> decide

theorem decVal_append_digit (l : List Char) (c : Char) :
    decVal (l ++ [c]) = decVal l * 10 + (c.toNat - 48) := by
  simp [decVal, List.foldl_append]

theorem decVal_natStrAux {fuel n : Nat} (h : n < fuel) :
    decVal (natStrAux fuel n) = n := by
  induction fuel generalizing n with
  | zero => omega
  | succ f ih =>
    by_cases h10 : n < 10
    · simp [natStrAux, h10, decVal, digitChar_toNat h10]
    · have hdiv : n / 10 < n := Nat.div_lt_self (by omega) (by omega)
      have : n / 10 < f := by omega
      simp only [natStrAux, if_neg h10]
      rw [decVal_append_digit, ih this, digitChar_toNat (Nat.mod_lt n (by omega))]
      omega

theorem decVal_natStr (n : Nat) : decVal (natStr n) = n :=
  decVal_natStrAux (Nat.lt_succ_self n)

theorem natStr_injective : Function.Injective natStr := by
  intro m n h
  have := decVal_natStr m
  rw [h, decVal_natStr] at this
  omega

theorem natStr_ne_nil (n : Nat) : natStr n ≠ [] := by
  unfold natStr natStrAux
  by_cases h : n < 10 <;> simp [h]

theorem candAux_injective (base : String) : Function.Injective (candAux base) := by
  intro i j h
  unfold candAux at h
  rcases Nat.eq_zero_or_pos i with hi | hi <;> rcases Nat.eq_zero_or_pos j with hj | hj
  · omega
  · exfalso
    rw [if_pos hi, if_neg (by omega)] at h
    have := congrArg (fun s => s.data.length) h
    simp [String.data_append] at this
  · exfalso
    rw [if_neg (by omega), if_pos hj] at h
    have := congrArg (fun s => s.data.length) h
    simp [String.data_append] at this
  · rw [if_neg (by omega), if_neg (by omega)] at h
    have hd := congrArg String.data h
    simp only [String.data_append, List.append_assoc] at hd
    have h2 := List.append_cancel_left hd
    have h3 := List.append_cancel_left h2
    exact natStr_injective h3

theorem exists_free_cand (base : String) (existing : List String) :
    ∃ j, j < existing.length + 1 ∧ candAux base j ∉ existing := by
  by_contra hcon
  push_neg at hcon
  have hsub : (Finset.range (existing.length + 1)).image (candAux base) ⊆
      existing.toFinset := by
    intro s hs
    rcases Finset.mem_image.mp hs with ⟨j, hj, rfl⟩
    exact List.mem_toFinset.mpr (hcon j (Finset.mem_range.mp hj))
  have hcard := Finset.card_le_card hsub
  rw [Finset.card_image_of_injective _ (candAux_injective base),
    Finset.card_range] at hcard
  have := List.toFinset_card_le existing
  omega

theorem findFree_spec (base : String) (existing : List String) :
    ∀ fuel k, (∃ j, j < fuel ∧ candAux base (k + j) ∉ existing) →
    ∃ J, J < fuel ∧ findFree base existing fuel k = candAux base (k + J) ∧
      candAux base (k + J) ∉ existing ∧ ∀ i < J, candAux base (k + i) ∈ existing := by
  intro fuel
  induction fuel with
  | zero => intro k h; omega
  | succ f ih =>
    intro k h
    by_cases hmem : candAux base k ∈ existing
    · obtain ⟨j, hj, hfree⟩ := h
      have hj0 : j ≠ 0 := by
        intro h0; rw [h0] at hfree; simp at hfree; exact hfree hmem
      obtain ⟨j', rfl⟩ := Nat.exists_eq_succ_of_ne_zero hj0
      have : ∃ j, j < f ∧ candAux base (k + 1 + j) ∉ existing := by
        refine ⟨j', by omega, ?_⟩
        have : k + 1 + j' = k + (j' + 1) := by omega
        rw [this]; exact hfree
      obtain ⟨J', hJ'f, heq, hfree', hall⟩ := ih (k + 1) this
      refine ⟨J' + 1, by omega, ?_, ?_, ?_⟩
      · simp only [findFree, if_pos hmem]
        rw [heq]; congr 1; omega
      · have : k + (J' + 1) = k + 1 + J' := by omega
        rw [this]; exact hfree'
      · intro i hi
        cases i with
        | zero => simpa using hmem
        | succ i' =>
          have : k + (i' + 1) = k + 1 + i' := by omega
          rw [this]; exact hall i' (by omega)
    · exact ⟨0, by omega, by simp [findFree, hmem], by simpa using hmem, by omega⟩

theorem genId_spec (text : String) (existing : List String) :
    ∃ K, generate_unique_node_id text existing = candAux (baseIdOf text) K ∧
      candAux (baseIdOf text) K ∉ existing ∧
      ∀ j < K, candAux (baseIdOf text) j ∈ existing := by
  obtain ⟨j, hj, hfree⟩ := exists_free_cand (baseIdOf text) existing
  obtain ⟨J, _, heq, hfree', hall⟩ :=
    findFree_spec (baseIdOf text) existing (existing.length + 1) 0
      ⟨j, hj, by simpa using hfree⟩
  exact ⟨J, by simpa using heq, by simpa using hfree',
    fun i hi => by simpa using hall i hi⟩

theorem genId_not_mem (text : String) (existing : List String) :
    generate_unique_node_id text existing ∉ existing := by
  obtain ⟨K, heq, hfree, _⟩ := genId_spec text existing
  rw [heq]; exact hfree


theorem rootsAmong_append_fresh (nodes : List PNode) (edges : List PEdge)
    (n : PNode) (h : ∀ e ∈ edges, e.dst ≠ n.id) :
    (rootsAmong (nodes ++ [n]) edges).length = (rootsAmong nodes edges).length + 1 := by
  have hn : noIncoming edges n = true := by
    simp only [noIncoming, List.all_eq_true]
    intro e he
    simpa using h e he
  simp [rootsAmong, List.filter_append, hn]

theorem rootsAmong_append_edge (nodes : List PNode) (edges : List PEdge)
    (n : PNode) (e : PEdge) (hdst : e.dst = n.id)
    (hne : ∀ m ∈ nodes, m.id ≠ n.id) :
    (rootsAmong (nodes ++ [n]) (edges ++ [e])).length =
      (rootsAmong nodes edges).length := by
  have hnew : noIncoming (edges ++ [e]) n = false := by
    simp [noIncoming, List.all_append, hdst]
  have hcong : nodes.filter (noIncoming (edges ++ [e])) =
      nodes.filter (noIncoming edges) := by
    apply List.filter_congr
    intro m hm
    have hb : (e.dst == m.id) = false := by
      rw [beq_eq_false_iff_ne, hdst]
      exact fun hq => hne m hm hq.symm
    simp [noIncoming, List.all_append, hb]
  simp [rootsAmong, List.filter_append, hcong, hnew]

theorem nodup_ids_append (nodes : List PNode) (n : PNode)
    (h : (nodes.map PNode.id).Nodup) (hne : ∀ m ∈ nodes, m.id ≠ n.id) :
    ((nodes ++ [n]).map PNode.id).Nodup := by
  rw [List.map_append, List.nodup_append]
  refine ⟨h, by simp, ?_⟩
  intro a ha hb
  simp only [List.map_cons, List.map_nil, List.mem_singleton] at hb
  subst hb
  rcases List.mem_map.mp ha with ⟨m, hm, hid⟩
  exact hne m hm hid

theorem processLine_SInv (s : Settings) (st : SState) (l : List Char)
    (h : SInv st) : SInv (processLine s st l) := by
  obtain ⟨h1, h2, h3, h4⟩ := h
  cases hm : matchItem l with
  | none => simpa [processLine, hm] using ⟨h1, h2, h3, h4⟩
  | some p =>
    obtain ⟨ind, t0⟩ := p
    simp only [processLine, hm]
    have hfresh := genId_not_mem (⟨pyStripL t0⟩ : String) st.existing
    have hid_ne : ∀ n ∈ st.nodes,
        n.id ≠ generate_unique_node_id (⟨pyStripL t0⟩ : String) st.existing :=
      fun n hn heq => hfresh (heq ▸ h1 n hn)
    have hdst_ne : ∀ e ∈ st.edges,
        e.dst ≠ generate_unique_node_id (⟨pyStripL t0⟩ : String) st.existing :=
      fun e he heq => hfresh (heq ▸ h2 e he)
    cases hpop : popGE st.stack (ind.length / 2) with
    | nil =>
      refine ⟨?_, ?_, ?_, ?_⟩
      · intro n hn
        rcases List.mem_append.mp hn with hn | hn
        · exact List.mem_cons_of_mem _ (h1 n hn)
        · simp only [List.mem_singleton] at hn
          subst hn
          exact List.mem_cons_self _ _
      · intro e he
        exact List.mem_cons_of_mem _ (h2 e he)
      · exact nodup_ids_append _ _ h3 hid_ne
      · have := rootsAmong_append_fresh st.nodes st.edges
          ⟨generate_unique_node_id (⟨pyStripL t0⟩ : String) st.existing,
            (⟨pyStripL t0⟩ : String), ind.length / 2,
            if !(toLowerL s.search_term.data).isEmpty &&
                subOf (toLowerL s.search_term.data)
                  (toLowerL (pyStripL t0)) then s.highlight_color
            else s.node_color⟩ hdst_ne
        simp only [List.length_append, List.length_cons, List.length_nil]
        omega
    | cons top rest =>
      obtain ⟨d, pid⟩ := top
      refine ⟨?_, ?_, ?_, ?_⟩
      · intro n hn
        rcases List.mem_append.mp hn with hn | hn
        · exact List.mem_cons_of_mem _ (h1 n hn)
        · simp only [List.mem_singleton] at hn
          subst hn
          exact List.mem_cons_self _ _
      · intro e he
        rcases List.mem_append.mp he with he | he
        · exact List.mem_cons_of_mem _ (h2 e he)
        · simp only [List.mem_singleton] at he
          subst he
          exact List.mem_cons_self _ _
      · exact nodup_ids_append _ _ h3 hid_ne
      · have := rootsAmong_append_edge st.nodes st.edges
          ⟨generate_unique_node_id (⟨pyStripL t0⟩ : String) st.existing,
            (⟨pyStripL t0⟩ : String), ind.length / 2,
            if !(toLowerL s.search_term.data).isEmpty &&
                subOf (toLowerL s.search_term.data)
                  (toLowerL (pyStripL t0)) then s.highlight_color
            else s.node_color⟩
          ⟨pid, generate_unique_node_id (⟨pyStripL t0⟩ : String) st.existing,
            s.edge_color⟩ rfl hid_ne
        simp only [List.length_append, List.length_cons, List.length_nil]
        omega

theorem foldl_SInv (s : Settings) :
    ∀ (lines : List (List Char)) (st : SState),
      SInv st → SInv (lines.foldl (processLine s) st) := by
  intro lines
  induction lines with
  | nil => intro st h; exact h
  | cons l rest ih =>
    intro st h
    exact ih (processLine s st l) (processLine_SInv s st l h)

theorem parseFold_SInv (md : String) (s : Settings) : SInv (parseFold md s) := by
  apply foldl_SInv
  refine ⟨by simp [initS], by simp [initS], by simp [initS], by simp [initS, rootsAmong]⟩

/-- C6: for every label and id set, `generate_unique_node_id` returns the
first candidate of the sequence `base, base_1, base_2, ...` that is not in
`existing_ids` (where `base` is the sanitised, lower-cased label, or
`"node"` when that is empty); in particular the result is never in
`existing_ids`.  The embedding is pure, so the id set is not mutated. -/
theorem c6_unique_id_first_fit (label : String) (existing_ids : List String) :
    ∃ K, generate_unique_node_id label existing_ids = candAux (baseIdOf label) K ∧
      candAux (baseIdOf label) K ∉ existing_ids ∧
      ∀ j < K, candAux (baseIdOf label) j ∈ existing_ids :=
  genId_spec label existing_ids

/-- C7: within one build of the dict-variant graph builder, the emitted
node ids are pairwise distinct (each generated id joins the running id set
before the next line is processed). -/
theorem c7_ids_unique (markdown_text : String) (s : Settings) :
    ((buildDot markdown_text s).nodes.map PNode.id).Nodup :=
  (parseFold_SInv markdown_text s).2.2.1

/-- C8 as stated is false: on `"x\n    - A"` the only emitted node has
depth 2 and no parent (the non-matching first line leaves the parent stack
empty), so 0 edges = 1 node - 0 depth-0 roots fails. -/
theorem c8_edge_count_counterexample :
    (buildDot "x\n    - A" defaultSettings).nodes.length = 1 ∧
    (buildDot "x\n    - A" defaultSettings).edges.length = 0 ∧
    ((buildDot "x\n    - A" defaultSettings).nodes.filter
      (fun n => n.depth == 0)).length = 0 ∧
    ¬ ((buildDot "x\n    - A" defaultSettings).edges.length =
      (buildDot "x\n    - A" defaultSettings).nodes.length -
        ((buildDot "x\n    - A" defaultSettings).nodes.filter
          (fun n => n.depth == 0)).length) := by
  refine ⟨by decide, by decide, by decide, by decide⟩

/-- C8 amended: the number of emitted nodes equals the number of emitted
edges plus the number of parentless nodes (nodes that are the target of no
edge).  Every depth-0 node is parentless, but an indented node emitted
while the stack holds no shallower entry is parentless too, so the count
subtracted is of parentless nodes, not depth-0 nodes. -/
theorem c8_edge_count_amended (markdown_text : String) (s : Settings) :
    (buildDot markdown_text s).nodes.length =
      (buildDot markdown_text s).edges.length +
        (parentless (buildDot markdown_text s)).length :=
  (parseFold_SInv markdown_text s).2.2.2

/-- C1: the scan itself (src/app.py lines 136-172) yields an empty graph on
empty input, but `parse_markdown_to_graphviz` as defined raises `NameError`
on every call: its final statements (lines 174-178, the body of a lost
`generate_mind_map` definition) read the undefined global
`MIND_MAP_PROMPT`. -/
theorem c1_parser_total_code_bug :
    (buildDot "" defaultSettings).nodes = [] ∧
    (buildDot "" defaultSettings).edges = [] ∧
    (build_graph "" baseOpts).1.nodes = [] ∧
    (build_graph "" baseOpts).2 = 0 ∧
    ∀ (md : String) (s : Settings), parse_markdown_to_graphviz md s =
      Except.error "NameError: name MIND_MAP_PROMPT is not defined" :=
  ⟨by decide, by decide, by decide, by decide, fun _ _ => rfl⟩

theorem buildLines_pres (o : Options) (P : MState → Prop)
    (hstep : ∀ (st : MState) (l : List Char) (next : Option (List Char)),
      P st → P (buildStep o l next st)) :
    ∀ (lines : List (List Char)) (st : MState), P st → P (buildLines o lines st) := by
  intro lines
  induction lines with
  | nil => intro st h; exact h
  | cons l rest ih => intro st h; exact ih _ (hstep st l rest.head? h)

theorem buildStep_count (o : Options) (st : MState) (l : List Char)
    (next : Option (List Char)) (h : st.count = st.nodes.length) :
    (buildStep o l next st).count = (buildStep o l next st).nodes.length := by
  simp only [buildStep]
  split_ifs <;> simp [h]

theorem buildStep_skip_deep (o : Options) (st : MState) (l : List Char)
    (next : Option (List Char)) (h : o.max_depth ≤ rawDepth l) :
    buildStep o l next st = st := by
  simp only [buildStep]
  split_ifs <;> rfl

theorem buildStep_depth (o : Options) (st : MState) (l : List Char)
    (next : Option (List Char))
    (h : ∀ n ∈ st.nodes, n.depth < o.max_depth) :
    ∀ n ∈ (buildStep o l next st).nodes, n.depth < o.max_depth := by
  simp only [buildStep]
  split_ifs <;> try exact h
  all_goals
    intro n hn
    rcases List.mem_append.mp hn with hn | hn
    · exact h n hn
    · simp only [List.mem_singleton] at hn
      subst hn
      show rawDepth l < o.max_depth
      omega

theorem buildStep_deepView (o : Options) (st : MState) (l : List Char)
    (next : Option (List Char)) :
    deepView (buildStep o l next st).nodes = deepView st.nodes ++ dvStep o l next := by
  simp only [buildStep, dvStep]
  split_ifs with h1 h2 h3 h4 <;>
    simp_all [deepView, List.filterMap_append]

theorem dvStep_setRoot (o : Options) (r : String) (l : List Char)
    (next : Option (List Char)) :
    dvStep (setRoot o r) l next = dvStep o l next :=
  rfl

theorem buildLines_deepView (o : Options) (r : String) :
    ∀ (lines : List (List Char)) (st1 st2 : MState),
      deepView st1.nodes = deepView st2.nodes →
      deepView (buildLines o lines st1).nodes =
        deepView (buildLines (setRoot o r) lines st2).nodes := by
  intro lines
  induction lines with
  | nil => intro st1 st2 h; exact h
  | cons l rest ih =>
    intro st1 st2 h
    apply ih
    rw [buildStep_deepView, buildStep_deepView, h, dvStep_setRoot]

theorem buildStep_root_label (o : Options) (hcr : o.custom_root.data ≠ [])
    (st : MState) (l : List Char) (next : Option (List Char))
    (h : ∀ n ∈ st.nodes, n.depth = 0 → n.label = o.custom_root) :
    ∀ n ∈ (buildStep o l next st).nodes, n.depth = 0 → n.label = o.custom_root := by
  have hbe : o.custom_root.data.isEmpty = false := by
    cases hd : o.custom_root.data with
    | nil => exact absurd hd hcr
    | cons a t => rfl
  simp only [buildStep, hbe]
  split_ifs with h1 h2 h3 h4 <;> try exact h
  all_goals
    intro n hn hd0
    rcases List.mem_append.mp hn with hn | hn
    · exact h n hn hd0
    · simp only [List.mem_singleton] at hn
      subst hn
      first
        | rfl
        | (exfalso
           have hdep : rawDepth l = 0 := hd0
           simp_all)

/-- C2: the keyword-argument builder returns a pair of a graph description
and a node count, and the count equals the number of nodes actually emitted
after depth filtering and leaf hiding. -/
theorem c2_node_count (outline_text : String) (o : Options) :
    (build_graph outline_text o).2 = (build_graph outline_text o).1.nodes.length := by
  have h := buildLines_pres o (fun st => st.count = st.nodes.length)
    (fun st l next hst => buildStep_count o st l next hst)
    (splitOnNl outline_text.data) initM rfl
  exact h

/-- C3: no node emitted by the keyword-argument builder has depth at least
`max_depth`, and a line whose depth is at least `max_depth` is skipped
outright — the whole scan state (nodes, edges, stack, id set, count) is
unchanged by it. -/
theorem c3_depth_filter :
    (∀ (outline : String) (o : Options) (n : PNode),
      n ∈ (build_graph outline o).1.nodes → n.depth < o.max_depth) ∧
    (∀ (o : Options) (st : MState) (l : List Char) (next : Option (List Char)),
      o.max_depth ≤ rawDepth l → buildStep o l next st = st) := by
  constructor
  · intro outline o n hn
    have h := buildLines_pres o (fun st => ∀ m ∈ st.nodes, m.depth < o.max_depth)
      (fun st l next hst => buildStep_depth o st l next hst)
      (splitOnNl outline.data) initM (by intro m hm; simp [initM] at hm)
    exact h n hn
  · exact fun o st l next hd => buildStep_skip_deep o st l next hd

/-- C3 witness: with `max_depth = 1`, the node parsed from `"- A"` is
emitted at depth 0 < 1, and the line `"    - Deep"` (depth 2) leaves the
state untouched. -/
theorem c3_depth_filter_witness :
    ((⟨"a", "A", 0, "#ADD8E6"⟩ : PNode) ∈
        (build_graph "- A\n    - Deep" depthOpts).1.nodes ∧
      (⟨"a", "A", 0, "#ADD8E6"⟩ : PNode).depth < depthOpts.max_depth) ∧
    buildStep depthOpts "    - Deep".data none initM = initM :=
  ⟨⟨by decide, c3_depth_filter.1 "- A\n    - Deep" depthOpts _ (by decide)⟩,
    c3_depth_filter.2 depthOpts initM "    - Deep".data none (by decide)⟩

/-- C4: when `custom_root` is non-empty, every depth-0 node emitted by the
keyword-argument builder carries `custom_root` as its label, and the
(label, depth) view of the nodes of positive depth is the same as in a
build without a custom root. -/
theorem c4_custom_root (outline : String) (o : Options)
    (h : o.custom_root ≠ "") :
    (∀ n ∈ (build_graph outline o).1.nodes, n.depth = 0 → n.label = o.custom_root) ∧
    deepView (build_graph outline o).1.nodes =
      deepView (build_graph outline (setRoot o "")).1.nodes := by
  have hcr : o.custom_root.data ≠ [] := by
    intro hd
    apply h
    cases hmk : o.custom_root with
    | mk d => rw [hmk] at hd; simp at hd; rw [hd]
  constructor
  · exact buildLines_pres o (fun st => ∀ n ∈ st.nodes, n.depth = 0 →
        n.label = o.custom_root)
      (fun st l next hst => buildStep_root_label o hcr st l next hst)
      (splitOnNl outline.data) initM (by intro n hn; simp [initM] at hn)
  · exact buildLines_deepView o "" (splitOnNl outline.data) initM initM rfl

/-- C4 witness: building `"- A\n  - B"` with custom root `"ROOT"` gives the
same positive-depth (label, depth) view as building without it. -/
theorem c4_custom_root_witness :
    deepView (build_graph "- A\n  - B" rootOpts).1.nodes =
      deepView (build_graph "- A\n  - B" (setRoot rootOpts "")).1.nodes :=
  (c4_custom_root "- A\n  - B" rootOpts (by decide)).2

/-- C5 as stated is false: with `hide_leaf_nodes = true` the input
`"- Root\n  - Child1\n  - Child2"` does not yield 1 node and 0 edges —
Child2 is the last line, has no next raw line, and so is not suppressed
(the asymmetry the leaf-hiding rule itself creates). -/
theorem c5_leaf_hiding_counterexample :
    (build_graph "- Root\n  - Child1\n  - Child2" hideOpts).1.nodes.length = 2 ∧
    (build_graph "- Root\n  - Child1\n  - Child2" hideOpts).1.edges.length = 1 ∧
    ¬ ((build_graph "- Root\n  - Child1\n  - Child2" hideOpts).1.nodes.length = 1 ∧
       (build_graph "- Root\n  - Child1\n  - Child2" hideOpts).1.edges.length = 0) := by
  refine ⟨by decide, by decide, by decide⟩

/-- C5 amended: with `hide_leaf_nodes = true`, a line whose immediately
next raw line exists and has depth at most the current line's depth is
suppressed entirely — no node, no edge, nothing pushed, count untouched;
consequently `"- Root\n  - Child1\n  - Child2"` yields exactly 2 nodes
(Root and Child2) and 1 edge: Child1 is suppressed, while Child2, being the
last line with no next line, is emitted. -/
theorem c5_leaf_hiding_amended :
    (∀ (o : Options) (st : MState) (l r : List Char),
      o.hide_leaf_nodes = true → rawDepth r ≤ rawDepth l →
      buildStep o l (some r) st = st) ∧
    (build_graph "- Root\n  - Child1\n  - Child2" hideOpts).1.nodes.map PNode.label
      = ["Root", "Child2"] ∧
    (build_graph "- Root\n  - Child1\n  - Child2" hideOpts).1.edges.length = 1 ∧
    (build_graph "- Root\n  - Child1\n  - Child2" hideOpts).2 = 2 := by
  refine ⟨?_, by decide, by decide, by decide⟩
  intro o st l r hh hd
  by_cases h1 : (pyStripL l).isEmpty
  · simp [buildStep, h1]
  · by_cases h2 : o.max_depth ≤ rawDepth l
    · simp [buildStep, h1, h2]
    · have hdec : decide (rawDepth r ≤ rawDepth l) = true := decide_eq_true hd
      simp [buildStep, h1, h2, hh, hdec]

/-- C5 witness: the suppression rule applied concretely — with leaf hiding
on, the line `"  - Child1"` whose next raw line `"  - Child2"` has equal
depth leaves the scan state untouched. -/
theorem c5_leaf_hiding_witness :
    buildStep hideOpts "  - Child1".data (some "  - Child2".data) initM = initM :=
  c5_leaf_hiding_amended.1 hideOpts initM "  - Child1".data "  - Child2".data
    rfl (by decide)

theorem dropWhile_append_sat {p : Char → Bool} :
    ∀ (l₁ l₂ : List Char), (∀ c ∈ l₁, p c = true) →
      (l₁ ++ l₂).dropWhile p = l₂.dropWhile p := by
  intro l₁
  induction l₁ with
  | nil => intro l₂ _; rfl
  | cons c t ih =>
    intro l₂ h
    have hc : p c = true := h c (List.mem_cons_self _ _)
    simp only [List.cons_append, List.dropWhile_cons, hc, if_true]
    exact ih l₂ (fun d hd => h d (List.mem_cons_of_mem _ hd))

theorem buildDot_ws_append (pre md : String) (s : Settings)
    (hpre : ∀ c ∈ pre.data, isPyWs c = true) :
    buildDot (pre ++ md) s = buildDot md s := by
  have hstrip : pyStripL (pre.data ++ md.data) = pyStripL md.data := by
    unfold pyStripL
    rw [dropWhile_append_sat pre.data md.data hpre]
  simp [buildDot, parseFold, pyStrip, String.data_append, hstrip]

theorem splitOnNl_head : ∀ (cs : List Char),
    ∃ tl, splitOnNl cs = cs.takeWhile notNl :: tl := by
  intro cs
  induction cs with
  | nil => exact ⟨[], rfl⟩
  | cons c rest ih =>
    by_cases hc : c = '\n'
    · refine ⟨splitOnNl rest, ?_⟩
      subst hc
      simp [splitOnNl, List.takeWhile_cons, notNl]
    · obtain ⟨tl, htl⟩ := ih
      refine ⟨tl, ?_⟩
      have hcb : (c == '\n') = false := beq_eq_false_iff_ne.mpr hc
      simp only [splitOnNl, hcb, Bool.false_eq_true, if_false, htl,
        List.takeWhile_cons, notNl, Bool.not_eq_true']
      simp

theorem processLine_nodes_ext (s : Settings) (st : SState) (l : List Char) :
    ∃ δ, (processLine s st l).nodes = st.nodes ++ δ := by
  cases hm : matchItem l with
  | none => exact ⟨[], by simp [processLine, hm]⟩
  | some p =>
    obtain ⟨ind, t0⟩ := p
    simp only [processLine, hm]
    exact ⟨_, rfl⟩

theorem foldl_nodes_ext (s : Settings) :
    ∀ (lines : List (List Char)) (st : SState),
      ∃ δ, (lines.foldl (processLine s) st).nodes = st.nodes ++ δ := by
  intro lines
  induction lines with
  | nil => intro st; exact ⟨[], by simp⟩
  | cons l rest ih =>
    intro st
    obtain ⟨δ₁, h1⟩ := processLine_nodes_ext s st l
    obtain ⟨δ₂, h2⟩ := ih (processLine s st l)
    exact ⟨δ₁ ++ δ₂, by rw [List.foldl_cons, h2, h1, List.append_assoc]⟩

theorem parseFold_head (md : String) (s : Settings) (t : List Char)
    (h : matchItem ((pyStrip md).data.takeWhile notNl) = some ([], t)) :
    ∃ n rest, (parseFold md s).nodes = n :: rest ∧ n.depth = 0 ∧
      n.label = (⟨pyStripL t⟩ : String) := by
  obtain ⟨tl, htl⟩ := splitOnNl_head (pyStrip md).data
  unfold parseFold
  rw [htl, List.foldl_cons]
  obtain ⟨δ, hδ⟩ := foldl_nodes_ext s tl
    (processLine s initS ((pyStrip md).data.takeWhile notNl))
  rw [hδ]
  simp only [processLine, h, initS, List.nil_append, List.singleton_append]
  exact ⟨_, δ, rfl, rfl, rfl⟩

/-- C10: because the dict-variant builder strips the whole input before
splitting, any whitespace-only prefix (blank lines and the first item's own
indentation) changes nothing, and when the first non-whitespace content
begins a list item that item is parsed at depth 0; subsequent lines are
untouched by the strip, so they keep their original indentation. -/
theorem c10_global_strip (pre md : String) (s : Settings)
    (hpre : ∀ c ∈ pre.data, isPyWs c = true)
    (hitem : ∃ t, matchItem ((pyStrip md).data.takeWhile notNl) = some ([], t)) :
    buildDot (pre ++ md) s = buildDot md s ∧
    ∃ n rest, (buildDot md s).nodes = n :: rest ∧ n.depth = 0 := by
  obtain ⟨t, ht⟩ := hitem
  refine ⟨buildDot_ws_append pre md s hpre, ?_⟩
  obtain ⟨n, rest, hn, hd, _⟩ := parseFold_head md s t ht
  exact ⟨n, rest, hn, hd⟩

/-- C10 witness: two blank (whitespace) lines and the root item's own
two-space indentation are stripped, leaving the same graph as the
unindented outline. -/
theorem c10_global_strip_witness :
    buildDot ("  \n  " ++ "- A\n  - B") defaultSettings =
      buildDot "- A\n  - B" defaultSettings :=
  (c10_global_strip "  \n  " "- A\n  - B" defaultSettings (by decide)
    ⟨['A'], by decide⟩).1

theorem findItemsAux_nil (f : Nat) : findItemsAux f [] = [] := by
  cases f <;> rfl

theorem findItemsAux_congr (f : Nat) (cs cs' : List Char)
    (h : cs.dropWhile isPyWs = cs'.dropWhile isPyWs) :
    findItemsAux (f + 1) cs = findItemsAux (f + 1) cs' := by
  unfold findItemsAux
  rw [h]

theorem takeWhile_append_sat {p : Char → Bool} :
    ∀ (l₁ l₂ : List Char), (∀ c ∈ l₁, p c = true) →
      (l₁ ++ l₂).takeWhile p = l₁ ++ l₂.takeWhile p := by
  intro l₁
  induction l₁ with
  | nil => intro l₂ _; rfl
  | cons c t ih =>
    intro l₂ h
    have hc : p c = true := h c (List.mem_cons_self _ _)
    simp only [List.cons_append, List.takeWhile_cons, hc, if_true]
    rw [ih l₂ (fun d hd => h d (List.mem_cons_of_mem _ hd))]

theorem dropWhile_append_of_ne_nil {p : Char → Bool} :
    ∀ (l₁ l₂ : List Char), l₁.dropWhile p ≠ [] →
      (l₁ ++ l₂).dropWhile p = l₁.dropWhile p ++ l₂ := by
  intro l₁
  induction l₁ with
  | nil => intro l₂ h; exact absurd rfl h
  | cons c t ih =>
    intro l₂ h
    by_cases hc : p c = true
    · simp only [List.dropWhile_cons, hc, if_true] at h ⊢
      simp only [List.cons_append, List.dropWhile_cons, hc, if_true]
      exact ih l₂ h
    · have hc' : p c = false := by
        cases hcc : p c
        · rfl
        · exact absurd hcc hc
      simp only [List.cons_append, List.dropWhile_cons, hc', Bool.false_eq_true,
        if_false]

theorem dropWhile_head_false {p : Char → Bool} :
    ∀ {l : List Char} {x : Char} {xs : List Char},
      l.dropWhile p = x :: xs → p x = false := by
  intro l
  induction l with
  | nil => intro x xs h; simp at h
  | cons c t ih =>
    intro x xs h
    by_cases hc : p c = true
    · rw [List.dropWhile_cons, if_pos hc] at h
      exact ih h
    · rw [List.dropWhile_cons, if_neg hc] at h
      injection h with h1 h2
      subst h1
      simpa using hc

theorem splitOnNl_no_nl : ∀ (cs : List Char), (∀ c ∈ cs, notNl c = true) →
    splitOnNl cs = [cs] := by
  intro cs
  induction cs with
  | nil => intro _; rfl
  | cons c rest ih =>
    intro h
    have hc : notNl c = true := h c (List.mem_cons_self _ _)
    have hcb : (c == '\n') = false := by
      simpa [notNl] using hc
    simp only [splitOnNl, hcb, Bool.false_eq_true, if_false,
      ih (fun d hd => h d (List.mem_cons_of_mem _ hd))]

theorem splitOnNl_append : ∀ (L R : List Char), (∀ c ∈ L, notNl c = true) →
    splitOnNl (L ++ '\n' :: R) = L :: splitOnNl R := by
  intro L
  induction L with
  | nil => intro R _; simp [splitOnNl]
  | cons c t ih =>
    intro R h
    have hc : notNl c = true := h c (List.mem_cons_self _ _)
    have hcb : (c == '\n') = false := by
      simpa [notNl] using hc
    rw [List.cons_append]
    simp only [splitOnNl, hcb, Bool.false_eq_true, if_false, List.append_eq]
    rw [ih R (fun d hd => h d (List.mem_cons_of_mem _ hd))]

theorem takeWhile_all {p : Char → Bool} :
    ∀ (l : List Char), (∀ c ∈ l, p c = true) → l.takeWhile p = l := by
  intro l
  induction l with
  | nil => intro _; rfl
  | cons c t ih =>
    intro h
    rw [List.takeWhile_cons, if_pos (h c (List.mem_cons_self _ _)),
      ih (fun d hd => h d (List.mem_cons_of_mem _ hd))]

theorem findItemsAux_succ (f : Nat) (cs : List Char) :
    findItemsAux (f + 1) cs =
      match cs.dropWhile isPyWs with
      | [] => []
      | x :: rest =>
        match rest with
        | [] => findItemsAux f (nextLineStart (x :: rest))
        | c :: tail =>
          if x == '-' && isPyWs c && !(tail.takeWhile notNl).isEmpty then
            (⟨tail.takeWhile notNl⟩ : String) ::
              findItemsAux f (nextLineStart (tail.drop (tail.takeWhile notNl).length))
          else findItemsAux f (nextLineStart (x :: rest)) := rfl

theorem findItems_step_ws (f : Nat) (L R : List Char)
    (hws : ∀ c ∈ L, isPyWs c = true) :
    findItemsAux (f + 1) (L ++ '\n' :: R) = findItemsAux (f + 1) R := by
  apply findItemsAux_congr
  have hnl : isPyWs '\n' = true := by decide
  rw [dropWhile_append_sat L ('\n' :: R) hws, List.dropWhile_cons, if_pos hnl]

theorem findItems_last_line (f : Nat) (L : List Char)
    (hL : ∀ c ∈ L, notNl c = true) :
    findItemsAux (f + 1) L =
      ((matchItem L).map (fun p => (⟨p.2⟩ : String))).toList := by
  have hsub : ∀ c ∈ L.dropWhile isPyWs, notNl c = true :=
    fun c hc => hL c ((List.dropWhile_sublist isPyWs).subset hc)
  rw [findItemsAux_succ]
  unfold matchItem
  cases hM : L.dropWhile isPyWs with
  | nil => simp
  | cons x M1 =>
    have hx : notNl x = true := hsub x (by rw [hM]; exact List.mem_cons_self _ _)
    cases M1 with
    | nil =>
      dsimp only
      have hdw : (x :: ([] : List Char)).dropWhile notNl = [] := by
        simp [List.dropWhile_cons, hx]
      simp [nextLineStart, hdw, findItemsAux_nil]
    | cons c M2 =>
      dsimp only
      have hM2 : ∀ d ∈ M2, notNl d = true := fun d hd =>
        hsub d (by rw [hM]; exact List.mem_cons_of_mem _ (List.mem_cons_of_mem _ hd))
      have hcap : M2.takeWhile notNl = M2 := takeWhile_all M2 hM2
      rw [hcap]
      by_cases hcond : (x == '-' && isPyWs c && !M2.isEmpty) = true
      · rw [if_pos hcond, if_pos hcond]
        have hdrop : M2.drop M2.length = [] := List.drop_length M2
        simp [nextLineStart, hdrop, findItemsAux_nil]
      · rw [if_neg hcond, if_neg hcond]
        have hall : ∀ d ∈ (x :: c :: M2), notNl d = true := fun d hd =>
          hsub d (hM ▸ hd)
        have hdw : (x :: c :: M2).dropWhile notNl = [] :=
          List.dropWhile_eq_nil_iff.mpr hall
        simp [nextLineStart, hdw, findItemsAux_nil]

theorem findItems_step_content (f : Nat) (L R : List Char)
    (hL : ∀ c ∈ L, notNl c = true)
    (hne : L.dropWhile isPyWs ≠ [])
    (hnd : L.dropWhile isPyWs ≠ ['-']) :
    findItemsAux (f + 1) (L ++ '\n' :: R) =
      ((matchItem L).map (fun p => (⟨p.2⟩ : String))).toList ++ findItemsAux f R := by
  have hsub : ∀ c ∈ L.dropWhile isPyWs, notNl c = true :=
    fun c hc => hL c ((List.dropWhile_sublist isPyWs).subset hc)
  have hscrut : (L ++ '\n' :: R).dropWhile isPyWs = L.dropWhile isPyWs ++ '\n' :: R :=
    dropWhile_append_of_ne_nil L ('\n' :: R) hne
  rw [findItemsAux_succ, hscrut]
  unfold matchItem
  cases hM : L.dropWhile isPyWs with
  | nil => exact absurd hM hne
  | cons x M1 =>
    have hx : notNl x = true := hsub x (by rw [hM]; exact List.mem_cons_self _ _)
    cases M1 with
    | nil =>
      dsimp only [List.cons_append, List.nil_append]
      have hxd : (x == '-') = false := by
        rw [beq_eq_false_iff_ne]
        intro hxe
        subst hxe
        exact hnd hM
      have hxn : ¬ x = '\n' := by simpa [notNl] using hx
      have hnext : nextLineStart (x :: '\n' :: R) = R := by
        simp [nextLineStart, List.dropWhile_cons, notNl, hxn]
      simp [hxd, hnext]
    | cons c M2 =>
      dsimp only [List.cons_append]
      have hc : notNl c = true :=
        hsub c (by rw [hM]; exact List.mem_cons_of_mem _ (List.mem_cons_self _ _))
      have hM2 : ∀ d ∈ M2, notNl d = true := fun d hd =>
        hsub d (by rw [hM]; exact List.mem_cons_of_mem _ (List.mem_cons_of_mem _ hd))
      have hcap : (M2 ++ '\n' :: R).takeWhile notNl = M2 := by
        rw [takeWhile_append_sat M2 ('\n' :: R) hM2, List.takeWhile_cons]
        simp [notNl]
      rw [hcap]
      by_cases hcond : (x == '-' && isPyWs c && !M2.isEmpty) = true
      · rw [if_pos hcond, if_pos hcond]
        have hdrop : (M2 ++ '\n' :: R).drop M2.length = '\n' :: R :=
          List.drop_left M2 ('\n' :: R)
        have hnext : nextLineStart ('\n' :: R) = R := by
          simp [nextLineStart, List.dropWhile_cons, notNl]
        rw [hdrop, hnext]
        simp
      · rw [if_neg hcond, if_neg hcond]
        have hall : ∀ d ∈ (x :: c :: M2), notNl d = true := fun d hd =>
          hsub d (hM ▸ hd)
        have hnext : nextLineStart (x :: c :: (M2 ++ '\n' :: R)) = R := by
          have h1 : (x :: c :: (M2 ++ '\n' :: R)).dropWhile notNl = '\n' :: R := by
            rw [show x :: c :: (M2 ++ '\n' :: R) = (x :: c :: M2) ++ '\n' :: R by simp]
            rw [dropWhile_append_sat (x :: c :: M2) ('\n' :: R) hall,
              List.dropWhile_cons]
            simp [notNl]
          simp [nextLineStart, h1]
        rw [hnext]
        simp

theorem findItemsAux_eq_rawPerLine :
    ∀ (N : Nat) (cs : List Char), cs.length < N →
      ∀ (fuel : Nat), cs.length < fuel →
      (∀ l ∈ splitOnNl cs, l.dropWhile isPyWs ≠ ['-']) →
      findItemsAux fuel cs = rawPerLine cs := by
  intro N
  induction N with
  | zero => intro cs h; omega
  | succ N ih =>
    intro cs hcs fuel hfuel H
    cases hdw : cs.dropWhile notNl with
    | nil =>
      have hall : ∀ c ∈ cs, notNl c = true := List.dropWhile_eq_nil_iff.mp hdw
      obtain ⟨f, rfl⟩ : ∃ f, fuel = f + 1 := ⟨fuel - 1, by omega⟩
      rw [findItems_last_line f cs hall, rawPerLine, splitOnNl_no_nl cs hall]
      cases hmc : matchItem cs <;> simp [hmc]
    | cons d R =>
      have hd : notNl d = false := dropWhile_head_false hdw
      have hdnl : d = '\n' := by simpa [notNl] using hd
      subst hdnl
      have hcsdecomp : cs = cs.takeWhile notNl ++ '\n' :: R := by
        conv_lhs => rw [← List.takeWhile_append_dropWhile notNl cs]
        rw [hdw]
      have hLall : ∀ c ∈ cs.takeWhile notNl, notNl c = true :=
        fun c hc => List.mem_takeWhile_imp hc
      have hsplit : splitOnNl cs = cs.takeWhile notNl :: splitOnNl R := by
        conv_lhs => rw [hcsdecomp]
        exact splitOnNl_append _ R hLall
      have hR : ∀ l ∈ splitOnNl R, l.dropWhile isPyWs ≠ ['-'] := by
        intro l hl
        exact H l (by rw [hsplit]; exact List.mem_cons_of_mem _ hl)
      have hlen : cs.length = (cs.takeWhile notNl).length + 1 + R.length := by
        conv_lhs => rw [hcsdecomp]
        simp
        omega
      obtain ⟨f, rfl⟩ : ∃ f, fuel = f + 1 := ⟨fuel - 1, by omega⟩
      by_cases hws : ∀ c ∈ cs.takeWhile notNl, isPyWs c = true
      · have hmL : matchItem (cs.takeWhile notNl) = none := by
          have hnil : (cs.takeWhile notNl).dropWhile isPyWs = [] :=
            List.dropWhile_eq_nil_iff.mpr hws
          unfold matchItem
          rw [hnil]
        conv_lhs => rw [hcsdecomp]
        rw [findItems_step_ws f _ R hws,
          ih R (by omega) (f + 1) (by omega) hR]
        conv_rhs => rw [rawPerLine, hsplit, List.filterMap_cons, hmL]
        simp [rawPerLine]
      · have hne : (cs.takeWhile notNl).dropWhile isPyWs ≠ [] := by
          intro hnil
          exact hws (List.dropWhile_eq_nil_iff.mp hnil)
        have hnd : (cs.takeWhile notNl).dropWhile isPyWs ≠ ['-'] :=
          H _ (by rw [hsplit]; exact List.mem_cons_self _ _)
        conv_lhs => rw [hcsdecomp]
        rw [findItems_step_content f _ R hLall hne hnd,
          ih R (by omega) f (by omega) hR]
        conv_rhs => rw [rawPerLine, hsplit, List.filterMap_cons]
        cases hmc : matchItem (cs.takeWhile notNl) <;> simp [hmc, rawPerLine]

theorem findItems_eq_rawPerLine (cs : List Char)
    (H : ∀ l ∈ splitOnNl cs, l.dropWhile isPyWs ≠ ['-']) :
    findItems cs = rawPerLine cs :=
  findItemsAux_eq_rawPerLine (cs.length + 1) cs (Nat.lt_succ_self _)
    (cs.length + 1) (Nat.lt_succ_self _) H

/-- C9 as stated is false: the line `"- "` starts with the dash-space
marker after stripping, so the claim's reading yields the empty label, but
the regex requires at least one character after the marker (`.+`) and the
extractor returns nothing. -/
theorem c9_extractor_counterexample :
    parse_nodes_from_markdown "- " = [] ∧ claimLabelsC9 "- " = [""] :=
  ⟨by decide, by decide⟩

/-- C9 amended: `parse_nodes_from_markdown` returns exactly, in source-line
order with duplicates preserved, the trimmed captures of the lines that,
after stripping leading whitespace, start with a dash followed by one
whitespace character and at least one further character on the line (the
graph builder's per-line item pattern) — provided no line's
whitespace-stripped content is a lone dash (on such inputs the marker's
whitespace is the line break itself and text of the following line is
captured). -/
theorem c9_extractor_amended (md : String)
    (h : ∀ l ∈ splitOnNl md.data, l.dropWhile isPyWs ≠ ['-']) :
    parse_nodes_from_markdown md =
      (splitOnNl md.data).filterMap
        (fun l => (matchItem l).map (fun p => (⟨pyStripL p.2⟩ : String))) := by
  unfold parse_nodes_from_markdown
  rw [findItems_eq_rawPerLine md.data h, rawPerLine, List.map_filterMap]
  congr 1
  funext l
  cases matchItem l <;> simp

/-- C9 witness: on a well-formed outline the extractor agrees with the
per-line item pattern. -/
theorem c9_extractor_witness :
    parse_nodes_from_markdown "- Root\n  - Child" =
      (splitOnNl ("- Root\n  - Child" : String).data).filterMap
        (fun l => (matchItem l).map (fun p => (⟨pyStripL p.2⟩ : String))) :=
  c9_extractor_amended "- Root\n  - Child" (by decide)
